import Mathlib

/-!
Verification of the core prediction engine of the ISS pass tracker
(`src/main.py`, class `ISSPassPredictor`): the accuracy model
`estimate_accuracy`, the coarse scan of `calculate_passes`, and the fine
refinement `refine_pass_data`.

Embedding conventions:
* Instants are integers counting seconds (the code steps the coarse scan by
  `timedelta(minutes=1)` and the fine grid by `timedelta(seconds=1)`, so every
  instant the engine touches lies on a 1-second lattice).
* The external propagator (Skyfield's `satellite.at(t) - location.at(t)` with
  `.altaz()`) is a parameter: a pair of functions giving the slant-range
  distance in km and the elevation in degrees at an instant.  Floating point
  distances and angles are modelled by rationals.
* The `while current < end_dt` loop of `calculate_passes` is written with a
  fuel argument that merely bounds the number of iterations; the loop guard
  `cur < endT` is kept verbatim and `(endT - cur).toNat` iterations always
  suffice, since each iteration advances `cur` by 60.
-/

set_option maxRecDepth 200000

/-- The six reliability labels returned by `estimate_accuracy`
(`"EXCELLENT"`, `"VERY GOOD"`, `"GOOD"`, `"MODERATE"`, `"POOR"`,
`"VERY POOR"` in the source). -/
inductive Reliability : Type
  | EXCELLENT
  | VERY_GOOD
  | GOOD
  | MODERATE
  | POOR
  | VERY_POOR
deriving DecidableEq

/-- Branch formula of `estimate_accuracy` for `days_from_epoch ≤ 3`:
`1 + (days_from_epoch / 3) * 4`. -/
def tier1 (d : ℚ) : ℚ := 1 + (d / 3) * 4

/-- Branch formula for `3 < d ≤ 7`: `5 + ((d - 3) / 4) * 15`. -/
def tier2 (d : ℚ) : ℚ := 5 + ((d - 3) / 4) * 15

/-- Branch formula for `7 < d ≤ 30`: `20 + ((d - 7) / 23) * 80`. -/
def tier3 (d : ℚ) : ℚ := 20 + ((d - 7) / 23) * 80

/-- Branch formula for `30 < d ≤ 90`: `100 + ((d - 30) / 60) * 400`. -/
def tier4 (d : ℚ) : ℚ := 100 + ((d - 30) / 60) * 400

/-- Branch formula for `90 < d ≤ 180`: `500 + ((d - 90) / 90) * 500`. -/
def tier5 (d : ℚ) : ℚ := 500 + ((d - 90) / 90) * 500

/-- Branch formula for `d > 180`: `1000 * (1 + (d - 180) / 180)`. -/
def tier6 (d : ℚ) : ℚ := 1000 * (1 + (d - 180) / 180)

/-- `estimate_accuracy(days_from_epoch)` from `src/main.py` lines 112-137:
the if/elif chain over `days_from_epoch` returning the error estimate in km
and the reliability label. -/
def estimate_accuracy (d : ℚ) : ℚ × Reliability :=
  if d ≤ 3 then (tier1 d, Reliability.EXCELLENT)
  else if d ≤ 7 then (tier2 d, Reliability.VERY_GOOD)
  else if d ≤ 30 then (tier3 d, Reliability.GOOD)
  else if d ≤ 90 then (tier4 d, Reliability.MODERATE)
  else if d ≤ 180 then (tier5 d, Reliability.POOR)
  else (tier6 d, Reliability.VERY_POOR)

/-- The external orbital propagator, fixed for one search: at an instant it
yields the observer-relative slant-range distance (km) and elevation
(degrees), the `distance.km` and `alt.degrees` of the source's `altaz()`. -/
structure Propagator : Type where
  dist : Int → ℚ
  elev : Int → ℚ

/-- The pass record built by `refine_pass_data` (the dict of lines 246-255):
coarse window bounds, instant of closest approach, minimum distance (km),
maximum altitude (degrees), duration (minutes: the in-range sample count
divided by 60), and the accuracy-model output. -/
structure RefinedPass : Type where
  start : Int
  end_ : Int
  closest_time : Int
  min_distance : ℚ
  max_altitude : ℚ
  duration : ℚ
  error_km : ℚ
  reliability : Reliability
deriving DecidableEq

/-- The fine grid of `refine_pass_data`: 1-second instants from
`t0 = start_time - 1 min` for `int((t1 - t0).total_seconds())` steps where
`t1 = end_time + 1 min`, i.e. every second of `[start - 60, end + 60)`. -/
def fineTimes (startT endT : Int) : List Int :=
  (List.range ((endT + 60) - (startT - 60)).toNat).map (fun (i : ℕ) => startT - 60 + (i : Int))

/-- Tail of numpy's `argmin` over the distance list: `bv`/`best` are the
smallest value seen so far and its index, `i` the index of the list head;
a strictly smaller value replaces the running minimum, so ties keep the
first index, exactly numpy's first-occurrence rule. -/
def argminAux : List ℚ → ℚ → ℕ → ℕ → ℕ
  | [], _, best, _ => best
  | y :: ys, bv, best, i => if y < bv then argminAux ys y i (i + 1) else argminAux ys bv best (i + 1)

/-- numpy `argmin`: index of the first occurrence of the minimum (0 on an
empty list, which the engine never produces). -/
def argminList : List ℚ → ℕ
  | [] => 0
  | x :: xs => argminAux xs x 0 1

/-- numpy `.max()` over a list of rationals (0 on an empty list, which the
engine never produces). -/
def maxList : List ℚ → ℚ
  | [] => 0
  | x :: xs => xs.foldl max x

/-- `dist_km_list` of `refine_pass_data`: distances at every fine-grid instant. -/
def fineDists (p : Propagator) (startT endT : Int) : List ℚ :=
  (fineTimes startT endT).map p.dist

/-- The altitude samples `alts.degrees` at every fine-grid instant. -/
def fineAlts (p : Propagator) (startT endT : Int) : List ℚ :=
  (fineTimes startT endT).map p.elev

/-- `min_dist_index = dist_km_list.argmin()`. -/
def minIdx (p : Propagator) (startT endT : Int) : ℕ :=
  argminList (fineDists p startT endT)

/-- `refine_pass_data` (`src/main.py` lines 196-255): pads the coarse window
by one minute on each side, samples every second, and unless the minimum
distance still exceeds `max_distance_km` builds the pass record: closest
instant and distance at the argmin index, maximum altitude over the whole
grid, duration in minutes as the count of samples with distance
`≤ max_distance_km` divided by 60, and `estimate_accuracy` applied to
`(closest_time - tle_epoch)` in days. -/
def refine_pass_data (p : Propagator) (maxD : ℚ) (epoch startT endT : Int) :
    Option RefinedPass :=
  if (fineDists p startT endT).getD (minIdx p startT endT) 0 > maxD then none
  else
    some
      { start := startT
        end_ := endT
        closest_time := (fineTimes startT endT).getD (minIdx p startT endT) 0
        min_distance := (fineDists p startT endT).getD (minIdx p startT endT) 0
        max_altitude := maxList (fineAlts p startT endT)
        duration := ((fineDists p startT endT).countP (fun d => decide (d ≤ maxD)) : ℚ) / 60
        error_km :=
          (estimate_accuracy
            ((((fineTimes startT endT).getD (minIdx p startT endT) 0 - epoch : Int) : ℚ) / 86400)).1
        reliability :=
          (estimate_accuracy
            ((((fineTimes startT endT).getD (minIdx p startT endT) 0 - epoch : Int) : ℚ) / 86400)).2 }

/-- The in-range test of both scan phases: `dist_km <= self.max_distance_km`
(inclusive). -/
def inRangeB (p : Propagator) (maxD : ℚ) : Int → Bool :=
  fun t => decide (p.dist t ≤ maxD)

/-- The coarse `while current < end_dt` loop of `calculate_passes`
(lines 154-194), with the in-window state as `Option Int` (`none` when
`in_window` is false, `some window_start` when true).  The fuel argument
only bounds the iteration count; the loop exits through the `cur < endT`
guard, and fuel `(endT - cur).toNat` always suffices (each iteration
advances `cur` by 60).  On an in-range sample the window start is kept (or
set to the current tick when none is open); on an out-of-range sample an
open window `[window_start, current)` is closed and emitted. -/
def scanGo (inR : Int → Bool) (endT : Int) : ℕ → Int → Option Int → List (Int × Int)
  | 0, _, _ => []
  | n + 1, cur, st =>
    if cur < endT then
      if inR cur then
        scanGo inR endT n (cur + 60) (some (st.getD cur))
      else
        match st with
        | some w => (w, cur) :: scanGo inR endT n (cur + 60) none
        | none => scanGo inR endT n (cur + 60) none
    else []

/-- The coarse scan loop started with its sufficient fuel. -/
def scanLoop (inR : Int → Bool) (endT cur : Int) (st : Option Int) : List (Int × Int) :=
  scanGo inR endT (endT - cur).toNat cur st

/-- The candidate windows the coarse phase of `calculate_passes` emits, in
emission order, scanning from `now` (exclusive of `endT`) with no window
open initially. -/
def coarseWindows (p : Propagator) (maxD : ℚ) (now endT : Int) : List (Int × Int) :=
  scanLoop (inRangeB p maxD) endT now none

/-- `calculate_passes` (lines 139-194) with the horizon `[now, endT)` made
explicit: each coarse candidate window is fed to `refine_pass_data` and the
non-`None` results are collected in order. -/
def calculate_passes (p : Propagator) (maxD : ℚ) (epoch now endT : Int) :
    List RefinedPass :=
  (coarseWindows p maxD now endT).filterMap
    (fun w => refine_pass_data p maxD epoch w.1 w.2)

/-- `calculate_passes` as the source actually runs it: the caller supplies
only the horizon duration (`years`, here `durSec` seconds); the start is the
ambient current instant `start_time = ts.now()` (line 149) and the horizon
end is `start_time + duration` (line 150). -/
def calculate_passes_run (p : Propagator) (maxD : ℚ) (epoch now durSec : Int) :
    List RefinedPass :=
  calculate_passes p maxD epoch now (now + durSec)

/-- Ticks of the coarse sweep that starts at `base`: `base + 60 * k`. -/
def IsCoarseTick (base t : Int) : Prop := ∃ k : ℕ, t = base + 60 * k

/-- The sweep from `cur` with a window open closes it at instant `e`:
`e` is a tick before the horizon end, out of range, and every tick scanned
before it stayed in range. -/
def CloseSpec (inR : Int → Bool) (endT cur e : Int) : Prop :=
  IsCoarseTick cur e ∧ e < endT ∧ inR e = false ∧
    ∀ t, IsCoarseTick cur t → t < e → inR t = true

/-- A window the sweep from `base` emits when no window is open at `base`:
tick-aligned bounds `s < e` inside the horizon, in range at every tick of
`[s, e)`, out of range at `e`, and the window was opened on a false→true
transition (`s` is the first tick or its predecessor tick was out of range). -/
def WinFrom (inR : Int → Bool) (endT base s e : Int) : Prop :=
  IsCoarseTick base s ∧ IsCoarseTick base e ∧ s < e ∧ e < endT ∧ inR e = false ∧
    (∀ t, IsCoarseTick base t → s ≤ t → t < e → inR t = true) ∧
    (s = base ∨ inR (s - 60) = false)

/-- A window the sweep emits after first closing the window open at `base`:
as `WinFrom`, but `s` is a strictly later tick whose predecessor tick was
out of range. -/
def WinLater (inR : Int → Bool) (endT base s e : Int) : Prop :=
  (∃ k : ℕ, s = base + 60 * (k + 1)) ∧ IsCoarseTick base e ∧ s < e ∧ e < endT ∧
    inR e = false ∧ inR (s - 60) = false ∧
    ∀ t, IsCoarseTick base t → s ≤ t → t < e → inR t = true

/-- Exact description of the windows `scanGo` emits from state `st` at `cur`. -/
def ScanSpec (inR : Int → Bool) (endT cur : Int) : Option Int → Int → Int → Prop
  | none, s, e => WinFrom inR endT cur s e
  | some w, s, e => (s = w ∧ CloseSpec inR endT cur e) ∨ WinLater inR endT cur s e

/-- Ordering relation between candidate windows as the scan emits them:
each spans at least one coarse step and the later one starts at least one
coarse step after the earlier one ends. -/
def WRel (a b : Int × Int) : Prop :=
  a.1 + 60 ≤ a.2 ∧ a.2 + 60 ≤ b.1 ∧ b.1 + 60 ≤ b.2

/-- Lower bound on window starts emitted from state `st` at `cur`. -/
def stLB (st : Option Int) (cur : Int) : Int :=
  match st with
  | some w => w
  | none => cur

/-- A propagator in range only at instant 0 (distance 0 there, 2000 km
elsewhere): with threshold 1000 km it produces one pass on a horizon
containing 0 and none elsewhere. -/
def demoProp : Propagator :=
  ⟨fun t => if t = 0 then 0 else 2000, fun _ => 0⟩

/-- A propagator always at distance 0: every sample of every scan is in
range. -/
def constProp : Propagator :=
  ⟨fun _ => 0, fun _ => 0⟩

/-- A propagator whose coarse samples (step 60 from 0) leave range at 60,
180 and 240 but whose true closest approach for both resulting windows is
the single instant 119, which lies in the 60-second padding overlap of the
two fine grids. -/
def tieProp : Propagator :=
  ⟨fun t => if t = 60 ∨ t = 180 ∨ t = 240 then 11 else if t = 119 then 1 else 2,
   fun _ => 0⟩

/-! ## The accuracy model -/

/-- The error estimate of `estimate_accuracy` never decreases as the days
since epoch grow (on all of ℚ, not only `d ≥ 0`: the first branch formula is
itself increasing). -/
lemma estimate_accuracy_fst_mono {d₁ d₂ : ℚ} (h : d₁ ≤ d₂) :
    (estimate_accuracy d₁).1 ≤ (estimate_accuracy d₂).1 := by
  unfold estimate_accuracy tier1 tier2 tier3 tier4 tier5 tier6
  split_ifs <;> dsimp only <;> linarith

/-- The error estimate at days-from-epoch 0 is exactly 1 km. -/
lemma estimate_accuracy_zero : (estimate_accuracy 0).1 = 1 := by
  norm_num [estimate_accuracy, tier1]

/-- Claim C4: for every input `d = days_from_epoch`, `estimate_accuracy`
returns exactly the six-tier piecewise values of the spec's table:
`1 + (d/3)*4` EXCELLENT for `d ≤ 3`; `5 + ((d-3)/4)*15` VERY_GOOD for
`3 < d ≤ 7`; `20 + ((d-7)/23)*80` GOOD for `7 < d ≤ 30`;
`100 + ((d-30)/60)*400` MODERATE for `30 < d ≤ 90`;
`500 + ((d-90)/90)*500` POOR for `90 < d ≤ 180`; and
`1000*(1 + (d-180)/180)` VERY_POOR for `d > 180`. -/
theorem claim_C4_accuracy_table (d : ℚ) :
    (d ≤ 3 → estimate_accuracy d = (1 + (d / 3) * 4, Reliability.EXCELLENT)) ∧
    (3 < d → d ≤ 7 → estimate_accuracy d = (5 + ((d - 3) / 4) * 15, Reliability.VERY_GOOD)) ∧
    (7 < d → d ≤ 30 → estimate_accuracy d = (20 + ((d - 7) / 23) * 80, Reliability.GOOD)) ∧
    (30 < d → d ≤ 90 → estimate_accuracy d = (100 + ((d - 30) / 60) * 400, Reliability.MODERATE)) ∧
    (90 < d → d ≤ 180 → estimate_accuracy d = (500 + ((d - 90) / 90) * 500, Reliability.POOR)) ∧
    (180 < d → estimate_accuracy d = (1000 * (1 + (d - 180) / 180), Reliability.VERY_POOR)) := by
  refine ⟨?_, ?_, ?_, ?_, ?_, ?_⟩ <;> intros <;>
    unfold estimate_accuracy tier1 tier2 tier3 tier4 tier5 tier6 <;>
    split_ifs <;> first | rfl | (exfalso; linarith)

/-- Claim C5: the `error_km` component of `estimate_accuracy` is continuous
at each tier breakpoint (evaluating the breakpoint from both adjacent branch
formulas yields identical results, e.g. both give 5 at `d = 3`), and it is
monotonically non-decreasing in `d` for every `d ≥ 0`. -/
theorem claim_C5_breakpoints_and_mono :
    (tier1 3 = tier2 3 ∧ tier2 7 = tier3 7 ∧ tier3 30 = tier4 30 ∧
      tier4 90 = tier5 90 ∧ tier5 180 = tier6 180) ∧
    tier1 3 = 5 ∧
    (∀ d₁ d₂ : ℚ, 0 ≤ d₁ → d₁ ≤ d₂ →
      (estimate_accuracy d₁).1 ≤ (estimate_accuracy d₂).1) := by
  refine ⟨⟨?_, ?_, ?_, ?_, ?_⟩, ?_, fun d₁ d₂ _ h₁₂ => estimate_accuracy_fst_mono h₁₂⟩ <;>
    norm_num [tier1, tier2, tier3, tier4, tier5, tier6]

/-- Claim C9: for every negative `days_from_epoch`, `estimate_accuracy` does
not fail: it evaluates the first tier's formula `1 + (d/3)*4` with `d` as
given, returns tier EXCELLENT, and the error estimate is below 1 km. -/
theorem claim_C9_negative_days (d : ℚ) (hd : d < 0) :
    estimate_accuracy d = (1 + (d / 3) * 4, Reliability.EXCELLENT) ∧
    (estimate_accuracy d).1 < 1 := by
  have h3 : d ≤ 3 := by linarith
  constructor
  · unfold estimate_accuracy tier1
    rw [if_pos h3]
  · unfold estimate_accuracy tier1
    rw [if_pos h3]
    dsimp only
    linarith

/-- Witness for C9 at `d = -3`. -/
theorem claim_C9_negative_days_witness :
    estimate_accuracy (-3) = (1 + ((-3 : ℚ) / 3) * 4, Reliability.EXCELLENT) ∧
    (estimate_accuracy (-3)).1 < 1 :=
  claim_C9_negative_days (-3) (by norm_num)

/-- Claim C10: `estimate_accuracy` does not guarantee a positive error
estimate: for every `d ≤ -3/4` the returned `error_km` is `≤ 0` (exactly 0
at `d = -3/4`, strictly negative below, and unbounded below as `d`
decreases) while the tier is still EXCELLENT; `error_km ≥ 1` does hold
whenever `d ≥ 0`. -/
theorem claim_C10_error_sign :
    (∀ d : ℚ, d ≤ -(3 / 4) →
      (estimate_accuracy d).1 ≤ 0 ∧ (estimate_accuracy d).2 = Reliability.EXCELLENT) ∧
    (estimate_accuracy (-(3 / 4))).1 = 0 ∧
    (∀ d : ℚ, d < -(3 / 4) → (estimate_accuracy d).1 < 0) ∧
    (∀ B : ℚ, ∃ d : ℚ, d < -(3 / 4) ∧ (estimate_accuracy d).1 < B) ∧
    (∀ d : ℚ, 0 ≤ d → 1 ≤ (estimate_accuracy d).1) := by
  refine ⟨?_, ?_, ?_, ?_, ?_⟩
  · intro d hd
    have h3 : d ≤ 3 := by linarith
    unfold estimate_accuracy tier1
    rw [if_pos h3]
    exact ⟨by dsimp only; linarith, rfl⟩
  · norm_num [estimate_accuracy, tier1]
  · intro d hd
    have h3 : d ≤ 3 := by linarith
    unfold estimate_accuracy tier1
    rw [if_pos h3]
    dsimp only
    linarith
  · intro B
    refine ⟨min (3 * (B - 1) / 4 - 1) (-1), ?_, ?_⟩
    · have := min_le_right (3 * (B - 1) / 4 - 1) (-1 : ℚ)
      linarith
    · have h₁ := min_le_left (3 * (B - 1) / 4 - 1) (-1 : ℚ)
      have h₂ := min_le_right (3 * (B - 1) / 4 - 1) (-1 : ℚ)
      have h3 : min (3 * (B - 1) / 4 - 1) (-1 : ℚ) ≤ 3 := by linarith
      unfold estimate_accuracy tier1
      rw [if_pos h3]
      dsimp only
      linarith
  · intro d hd
    have h := estimate_accuracy_fst_mono (le_of_eq rfl : (0 : ℚ) ≤ 0)
    have h' := estimate_accuracy_fst_mono hd
    rw [estimate_accuracy_zero] at h'
    exact h'

/-! ## List infrastructure: indexing, argmin, max -/

/-- An in-bounds `getD` is a member of the list. -/
lemma getD_mem {α : Type} (d : α) :
    ∀ (l : List α) (i : ℕ), i < l.length → l.getD i d ∈ l := by
  intro l
  induction l with
  | nil => intro i h; simp at h
  | cons a l ih =>
    intro i h
    cases i with
    | zero => simp [List.getD_cons_zero]
    | succ j =>
      rw [List.getD_cons_succ]
      exact List.mem_cons_of_mem a (ih j (by simpa using h))

/-- `getD` commutes with `map` at an in-bounds index, for any defaults. -/
lemma getD_map {α β : Type} (f : α → β) (d₁ : α) (d₂ : β) :
    ∀ (l : List α) (i : ℕ), i < l.length → (l.map f).getD i d₂ = f (l.getD i d₁) := by
  intro l
  induction l with
  | nil => intro i h; simp at h
  | cons a l ih =>
    intro i h
    cases i with
    | zero => simp [List.getD_cons_zero]
    | succ j =>
      simp only [List.map_cons, List.getD_cons_succ]
      exact ih j (by simpa using h)

/-- `argminAux` scans the suffix of `l` that starts at index `i`, carrying
the index `best < i` of the running minimum `bv`; the result indexes a
global minimum of `l`, and every strictly earlier index holds a strictly
larger value (numpy's first-occurrence argmin). -/
lemma argminAux_spec :
    ∀ (ys l : List ℚ) (bv : ℚ) (best i : ℕ),
      i + ys.length = l.length →
      (∀ j : ℕ, ys.getD j 0 = l.getD (i + j) 0) →
      best < i → bv = l.getD best 0 →
      (∀ j : ℕ, j < i → bv ≤ l.getD j 0) →
      (∀ j : ℕ, j < best → bv < l.getD j 0) →
      argminAux ys bv best i < l.length ∧
      (∀ j : ℕ, j < l.length → l.getD (argminAux ys bv best i) 0 ≤ l.getD j 0) ∧
      (∀ j : ℕ, j < argminAux ys bv best i → l.getD (argminAux ys bv best i) 0 < l.getD j 0) := by
  intro ys
  induction ys with
  | nil =>
    intro l bv best i hlen hsuf hbi hbv hle hlt
    have hi : i = l.length := by simpa using hlen
    have hres : argminAux [] bv best i = best := rfl
    rw [hres]
    refine ⟨by omega, ?_, ?_⟩
    · intro j hj
      rw [← hbv]
      exact hle j (by omega)
    · intro j hj
      rw [← hbv]
      exact hlt j hj
  | cons y ys ih =>
    intro l bv best i hlen hsuf hbi hbv hle hlt
    have hy : y = l.getD i 0 := by simpa using hsuf 0
    have hsuf' : ∀ j : ℕ, ys.getD j 0 = l.getD (i + 1 + j) 0 := by
      intro j
      have := hsuf (j + 1)
      rw [List.getD_cons_succ] at this
      rw [this]
      have hidx : i + (j + 1) = i + 1 + j := by omega
      rw [hidx]
    have hlen' : i + 1 + ys.length = l.length := by
      simp only [List.length_cons] at hlen
      omega
    simp only [argminAux]
    split_ifs with hybv
    · refine ih l y i (i + 1) hlen' hsuf' (by omega) hy ?_ ?_
      · intro j hj
        rcases Nat.lt_succ_iff_lt_or_eq.mp hj with hj' | hj'
        · exact le_of_lt (lt_of_lt_of_le hybv (hle j hj'))
        · rw [hj', ← hy]
      · intro j hj
        exact lt_of_lt_of_le hybv (hle j hj)
    · refine ih l bv best (i + 1) hlen' hsuf' (by omega) hbv ?_ hlt
      intro j hj
      rcases Nat.lt_succ_iff_lt_or_eq.mp hj with hj' | hj'
      · exact hle j hj'
      · rw [hj', ← hy]
        exact le_of_not_lt hybv

/-- `argminList` of a non-empty list indexes a global minimum, and strictly
earlier indices hold strictly larger values. -/
lemma argminList_spec (l : List ℚ) (hl : l ≠ []) :
    argminList l < l.length ∧
    (∀ j : ℕ, j < l.length → l.getD (argminList l) 0 ≤ l.getD j 0) ∧
    (∀ j : ℕ, j < argminList l → l.getD (argminList l) 0 < l.getD j 0) := by
  cases l with
  | nil => exact absurd rfl hl
  | cons x xs =>
    have h := argminAux_spec xs (x :: xs) x 0 1 (by rw [List.length_cons, Nat.add_comm])
      (fun j => by rw [Nat.add_comm 1 j, List.getD_cons_succ]) (by omega)
      (by rw [List.getD_cons_zero]) (fun j hj => by interval_cases j; simp)
      (fun j hj => by omega)
    simpa [argminList] using h

/-- The accumulator never exceeds a `foldl max`. -/
lemma foldl_max_le_init : ∀ (l : List ℚ) (acc : ℚ), acc ≤ l.foldl max acc := by
  intro l
  induction l with
  | nil => intro acc; simp
  | cons y l ih =>
    intro acc
    exact le_trans (le_max_left acc y) (ih (max acc y))

/-- Every element is bounded by a `foldl max`. -/
lemma le_foldl_max : ∀ (l : List ℚ) (acc x : ℚ), x ∈ l → x ≤ l.foldl max acc := by
  intro l
  induction l with
  | nil => intro acc x hx; simp at hx
  | cons y l ih =>
    intro acc x hx
    rcases List.mem_cons.mp hx with rfl | hx'
    · exact le_trans (le_max_right acc x) (foldl_max_le_init l (max acc x))
    · exact ih (max acc y) x hx'

/-- A `foldl max` is the accumulator or one of the elements. -/
lemma foldl_max_mem : ∀ (l : List ℚ) (acc : ℚ), l.foldl max acc = acc ∨ l.foldl max acc ∈ l := by
  intro l
  induction l with
  | nil => intro acc; simp
  | cons y l ih =>
    intro acc
    rcases ih (max acc y) with h | h
    · rcases max_choice acc y with hm | hm
      · left; rw [List.foldl_cons, h, hm]
      · right; rw [List.foldl_cons, h, hm]; exact List.mem_cons_self y l
    · right; exact List.mem_cons_of_mem y h

/-- Every element is bounded by `maxList`. -/
lemma le_maxList (l : List ℚ) (x : ℚ) (hx : x ∈ l) : x ≤ maxList l := by
  cases l with
  | nil => simp at hx
  | cons a l =>
    rcases List.mem_cons.mp hx with rfl | hx'
    · exact foldl_max_le_init l x
    · exact le_foldl_max l a x hx'

/-- `maxList` of a non-empty list is one of its elements. -/
lemma maxList_mem (l : List ℚ) (hl : l ≠ []) : maxList l ∈ l := by
  cases l with
  | nil => exact absurd rfl hl
  | cons a l =>
    rcases foldl_max_mem l a with h | h
    · rw [maxList, h]; exact List.mem_cons_self a l
    · exact List.mem_cons_of_mem a h

/-! ## The fine grid -/

/-- Length of the fine grid. -/
lemma fineTimes_length (s e : Int) :
    (fineTimes s e).length = ((e + 60) - (s - 60)).toNat := by
  unfold fineTimes
  rw [List.length_map, List.length_range]

/-- The fine grid holds exactly the seconds of `[s - 60, e + 60)`. -/
lemma mem_fineTimes {s e t : Int} :
    t ∈ fineTimes s e ↔ s - 60 ≤ t ∧ t < e + 60 := by
  simp only [fineTimes, List.mem_map, List.mem_range]
  constructor
  · rintro ⟨i, hi, rfl⟩
    omega
  · rintro ⟨h₁, h₂⟩
    exact ⟨(t - (s - 60)).toNat, by omega, by omega⟩

/-- The fine grid instant at an in-bounds index. -/
lemma fineTimes_getD {s e : Int} {i : ℕ} (h : i < (fineTimes s e).length) :
    (fineTimes s e).getD i 0 = s - 60 + (i : Int) := by
  rw [fineTimes_length] at h
  unfold fineTimes
  rw [getD_map (fun (i : ℕ) => s - 60 + (i : Int)) 0 0 (List.range _) i (by simpa using h)]
  rw [List.getD_eq_getElem?_getD, List.getElem?_range h]
  rfl

/-- A coarse window with `s ≤ e` yields a non-empty fine grid. -/
lemma fineTimes_ne_nil {s e : Int} (hse : s ≤ e) : fineTimes s e ≠ [] := by
  have h : 0 < (fineTimes s e).length := by
    rw [fineTimes_length]
    omega
  exact List.length_pos.mp h

/-- Distances over the fine grid, at an in-bounds index. -/
lemma fineDists_getD (p : Propagator) {s e : Int} {i : ℕ}
    (h : i < (fineTimes s e).length) :
    (fineDists p s e).getD i 0 = p.dist ((fineTimes s e).getD i 0) :=
  getD_map p.dist 0 0 (fineTimes s e) i h

/-- The index inside the fine grid of one of its members. -/
lemma fineTimes_index_of_mem {s e t : Int} (ht : t ∈ fineTimes s e) :
    (t - (s - 60)).toNat < (fineTimes s e).length ∧
    (fineTimes s e).getD ((t - (s - 60)).toNat) 0 = t := by
  rcases mem_fineTimes.mp ht with ⟨h₁, h₂⟩
  have hlt : (t - (s - 60)).toNat < (fineTimes s e).length := by
    rw [fineTimes_length]
    omega
  exact ⟨hlt, by rw [fineTimes_getD hlt]; omega⟩

/-! ## Facts about `refine_pass_data` -/

/-- `refine_pass_data` returns `None` exactly when every grid sample is out
of range, i.e. when the global minimum distance over the padded grid
exceeds `max_distance_km`. -/
lemma refine_eq_none_iff (p : Propagator) (maxD : ℚ) (epoch s e : Int) (hse : s ≤ e) :
    refine_pass_data p maxD epoch s e = none ↔
      ∀ t ∈ fineTimes s e, maxD < p.dist t := by
  have hne : fineTimes s e ≠ [] := fineTimes_ne_nil hse
  have hdne : fineDists p s e ≠ [] := by
    intro h
    exact hne (by simpa [fineDists] using h)
  have hdlen : (fineDists p s e).length = (fineTimes s e).length := by
    simp [fineDists]
  obtain ⟨hidx, hmin, -⟩ := argminList_spec (fineDists p s e) hdne
  unfold refine_pass_data
  split_ifs with h
  · simp only [true_iff]
    intro t ht
    obtain ⟨hti, htd⟩ := fineTimes_index_of_mem ht
    have := hmin ((t - (s - 60)).toNat) (by omega)
    rw [fineDists_getD p hti, htd] at this
    exact lt_of_lt_of_le h this
  · simp only [reduceCtorEq, false_iff, not_forall]
    push_neg
    refine ⟨(fineTimes s e).getD (minIdx p s e) 0,
      getD_mem 0 (fineTimes s e) (minIdx p s e) (by rw [← hdlen]; exact hidx), ?_⟩
    rw [← fineDists_getD p (by rw [← hdlen]; exact hidx)]
    exact le_of_not_lt h

/-- Everything `refine_pass_data` guarantees about a pass it emits: the
coarse bounds are copied, the closest instant is a grid sample realising
the (first) global minimum of the distance over the padded grid, the
minimum distance is within range, the maximum altitude is the maximum of
the altitude samples, and the duration is the inclusive in-range sample
count divided by 60. -/
lemma refine_some_spec (p : Propagator) (maxD : ℚ) (epoch s e : Int) (rp : RefinedPass)
    (hse : s ≤ e) (h : refine_pass_data p maxD epoch s e = some rp) :
    rp.start = s ∧ rp.end_ = e ∧
    rp.closest_time ∈ fineTimes s e ∧
    rp.min_distance = p.dist rp.closest_time ∧
    rp.min_distance ≤ maxD ∧
    (∀ t ∈ fineTimes s e, p.dist rp.closest_time ≤ p.dist t) ∧
    (∀ t ∈ fineTimes s e, t < rp.closest_time → p.dist rp.closest_time < p.dist t) ∧
    (∀ t ∈ fineTimes s e, p.elev t ≤ rp.max_altitude) ∧
    (∃ t ∈ fineTimes s e, rp.max_altitude = p.elev t) ∧
    rp.duration = ((fineTimes s e).countP (fun t => decide (p.dist t ≤ maxD)) : ℚ) / 60 := by
  have hne : fineTimes s e ≠ [] := fineTimes_ne_nil hse
  have hdne : fineDists p s e ≠ [] := by
    intro h'
    exact hne (by simpa [fineDists] using h')
  have hane : fineAlts p s e ≠ [] := by
    intro h'
    exact hne (by simpa [fineAlts] using h')
  have hdlen : (fineDists p s e).length = (fineTimes s e).length := by
    simp [fineDists]
  obtain ⟨hidx, hmin, hfirst⟩ := argminList_spec (fineDists p s e) hdne
  have hmi : argminList (fineDists p s e) = minIdx p s e := rfl
  rw [hmi] at hidx hmin hfirst
  have hidx' : minIdx p s e < (fineTimes s e).length := by rw [← hdlen]; exact hidx
  unfold refine_pass_data at h
  split_ifs at h with hgt
  have hrp := Option.some.inj h
  have hstart : rp.start = s := by rw [← hrp]
  have hend : rp.end_ = e := by rw [← hrp]
  have hct : rp.closest_time = (fineTimes s e).getD (minIdx p s e) 0 := by rw [← hrp]
  have hmd : rp.min_distance = (fineDists p s e).getD (minIdx p s e) 0 := by rw [← hrp]
  have hma : rp.max_altitude = maxList (fineAlts p s e) := by rw [← hrp]
  have hdur : rp.duration = ((fineDists p s e).countP (fun d => decide (d ≤ maxD)) : ℚ) / 60 := by
    rw [← hrp]
  have hclosest : (fineTimes s e).getD (minIdx p s e) 0 = s - 60 + (minIdx p s e : Int) :=
    fineTimes_getD hidx'
  refine ⟨hstart, hend, ?_, ?_, ?_, ?_, ?_, ?_, ?_, ?_⟩
  · rw [hct]
    exact getD_mem 0 (fineTimes s e) (minIdx p s e) hidx'
  · rw [hmd, hct]
    exact fineDists_getD p hidx'
  · rw [hmd]
    exact le_of_not_lt hgt
  · intro t ht
    obtain ⟨hti, htd⟩ := fineTimes_index_of_mem ht
    have hj : (t - (s - 60)).toNat < (fineDists p s e).length := by rw [hdlen]; omega
    have := hmin ((t - (s - 60)).toNat) hj
    rw [fineDists_getD p hti, htd, fineDists_getD p hidx', ← hct] at this
    exact this
  · intro t ht htlt
    obtain ⟨hti, htd⟩ := fineTimes_index_of_mem ht
    rcases mem_fineTimes.mp ht with ⟨hb₁, hb₂⟩
    rw [hct, hclosest] at htlt
    have hjlt : (t - (s - 60)).toNat < minIdx p s e := by omega
    have := hfirst ((t - (s - 60)).toNat) hjlt
    rw [fineDists_getD p hti, htd, fineDists_getD p hidx'] at this
    rw [hct, hclosest]
    rw [hclosest] at this
    exact this
  · intro t ht
    rw [hma]
    exact le_maxList (fineAlts p s e) (p.elev t)
      (by simpa [fineAlts] using List.mem_map_of_mem p.elev ht)
  · have hm := maxList_mem (fineAlts p s e) hane
    rcases List.mem_map.mp (by simpa [fineAlts] using hm) with ⟨t, ht, htm⟩
    exact ⟨t, ht, by rw [hma]; exact htm.symm⟩
  · have hc : (fineDists p s e).countP (fun d => decide (d ≤ maxD)) =
        (fineTimes s e).countP (fun t => decide (p.dist t ≤ maxD)) := by
      unfold fineDists
      rw [List.countP_map]
      rfl
    rw [hdur, hc]

/-! ## Claims about the fine refiner -/

/-- Claim C3: for every candidate window, the fine refiner pads it by 60 s on
both sides and builds a uniform 1-second grid over the padded interval
(exactly the seconds of `[start - 60, end + 60)`); it returns `None` if and
only if the global minimum distance over that grid exceeds
`max_distance_km`; and in every non-`None` result `min_distance_km ≤
max_distance_km`, `closest_time` is the grid instant at the (first) argmin
index of distance — a grid member realising the minimum, with every earlier
grid instant strictly farther — and `max_altitude` is the maximum elevation
over the whole padded grid. -/
theorem claim_C3_fine_refiner (p : Propagator) (maxD : ℚ) (epoch s e : Int) (hse : s ≤ e) :
    (refine_pass_data p maxD epoch s e = none ↔ ∀ t ∈ fineTimes s e, maxD < p.dist t) ∧
    (∀ t : Int, t ∈ fineTimes s e ↔ s - 60 ≤ t ∧ t < e + 60) ∧
    ∀ rp : RefinedPass, refine_pass_data p maxD epoch s e = some rp →
      rp.min_distance ≤ maxD ∧
      rp.closest_time ∈ fineTimes s e ∧
      rp.min_distance = p.dist rp.closest_time ∧
      (∀ t ∈ fineTimes s e, p.dist rp.closest_time ≤ p.dist t) ∧
      (∀ t ∈ fineTimes s e, t < rp.closest_time → p.dist rp.closest_time < p.dist t) ∧
      (∀ t ∈ fineTimes s e, p.elev t ≤ rp.max_altitude) ∧
      ∃ t ∈ fineTimes s e, rp.max_altitude = p.elev t := by
  refine ⟨refine_eq_none_iff p maxD epoch s e hse, fun t => mem_fineTimes, ?_⟩
  intro rp h
  obtain ⟨-, -, h₁, h₂, h₃, h₄, h₅, h₆, h₇, -⟩ := refine_some_spec p maxD epoch s e rp hse h
  exact ⟨h₃, h₁, h₂, h₄, h₅, h₆, h₇⟩

/-- Witness for C3: the `None`-iff contract at a concrete window. -/
theorem claim_C3_fine_refiner_witness :
    refine_pass_data constProp 100 0 0 60 = none ↔
      ∀ t ∈ fineTimes 0 60, (100 : ℚ) < constProp.dist t :=
  (claim_C3_fine_refiner constProp 100 0 0 60 (by decide)).1

/-- Amended claim C6: the `duration` field of every emitted pass is the
count of 1-second grid samples whose distance is `≤ max_distance_km`
(inclusive comparison) divided by 60, i.e. the true occupancy count
expressed in minutes — not `end − start`, and not the raw count in
seconds. -/
theorem claim_C6_duration_counts (p : Propagator) (maxD : ℚ) (epoch s e : Int)
    (rp : RefinedPass) (hse : s ≤ e) (h : refine_pass_data p maxD epoch s e = some rp) :
    rp.duration = ((fineTimes s e).countP (fun t => decide (p.dist t ≤ maxD)) : ℚ) / 60 :=
  (refine_some_spec p maxD epoch s e rp hse h).2.2.2.2.2.2.2.2.2

/-- Witness for C6's amended claim at a concrete window. -/
theorem claim_C6_duration_counts_witness :
    ((refine_pass_data constProp 100 0 0 60).map RefinedPass.duration).getD 0 =
      ((fineTimes 0 60).countP (fun t => decide (constProp.dist t ≤ 100)) : ℚ) / 60 := by
  cases h : refine_pass_data constProp 100 0 0 60 with
  | none =>
    have hs : (refine_pass_data constProp 100 0 0 60).isSome = true := by decide
    rw [h] at hs
    simp at hs
  | some rp =>
    show rp.duration = _
    exact claim_C6_duration_counts constProp 100 0 0 60 rp (by decide) h

/-- Counterexample to C6 as stated: on the window `[0, 60)` of an
always-in-range propagator, all 180 padded samples are in range, yet the
emitted duration field is `180 / 60 = 3` (minutes), not the occupancy count
`180` (seconds). -/
theorem claim_C6_cex : ∃ rp : RefinedPass,
    refine_pass_data constProp 100 0 0 60 = some rp ∧
    rp.duration ≠ ((fineTimes 0 60).countP (fun t => decide (constProp.dist t ≤ 100)) : ℚ) := by
  cases h : refine_pass_data constProp 100 0 0 60 with
  | none =>
    have hs : (refine_pass_data constProp 100 0 0 60).isSome = true := by decide
    rw [h] at hs
    simp at hs
  | some rp =>
    refine ⟨rp, rfl, ?_⟩
    have hdur := (refine_some_spec constProp 100 0 0 60 rp (by decide) h).2.2.2.2.2.2.2.2.2
    have hcount : (fineTimes 0 60).countP (fun t => decide (constProp.dist t ≤ 100)) = 180 := by
      decide
    rw [hdur, hcount]
    norm_num

/-! ## The coarse scan: step lemmas for the state machine -/

/-- A tick of the sweep shifted one step later is still a tick. -/
lemma tick_step {base t : Int} (h : IsCoarseTick (base + 60) t) : IsCoarseTick base t := by
  rcases h with ⟨k, rfl⟩
  exact ⟨k + 1, by omega⟩

/-- A tick at or after `base + 60` is a tick of the shifted sweep. -/
lemma tick_unstep {base t : Int} (h : IsCoarseTick base t) (ht : base + 60 ≤ t) :
    IsCoarseTick (base + 60) t := by
  rcases h with ⟨k, rfl⟩
  exact ⟨k - 1, by omega⟩

/-- Shift the in-range run condition one tick later. -/
lemma run_shift_up {inR : Int → Bool} {base s e : Int}
    (hrun : ∀ t, IsCoarseTick base t → s ≤ t → t < e → inR t = true) :
    ∀ t, IsCoarseTick (base + 60) t → s ≤ t → t < e → inR t = true :=
  fun t ht hst hte => hrun t (tick_step ht) hst hte

/-- Shift the in-range run condition one tick earlier, when the window
starts at or after the shifted base. -/
lemma run_shift_down {inR : Int → Bool} {base s e : Int}
    (hrun : ∀ t, IsCoarseTick (base + 60) t → s ≤ t → t < e → inR t = true)
    (hs : base + 60 ≤ s) :
    ∀ t, IsCoarseTick base t → s ≤ t → t < e → inR t = true :=
  fun t ht hst hte => hrun t (tick_unstep ht (by omega)) hst hte

/-- Step lemma, state `none`, in-range sample: opening a window at `cur`
and continuing describes exactly the windows described from `cur` with no
window open. -/
lemma scanStep_none_true {inR : Int → Bool} {endT cur : Int} (hT : inR cur = true) (s e : Int) :
    ScanSpec inR endT (cur + 60) (some cur) s e ↔ ScanSpec inR endT cur none s e := by
  simp only [ScanSpec]
  constructor
  · rintro (⟨rfl, ⟨k, rfl⟩, hlt, hF, hrun⟩ | ⟨⟨k, rfl⟩, ⟨k', rfl⟩, hse, hlt, hF, hFs, hrun⟩)
    · refine ⟨⟨0, by omega⟩, ⟨k + 1, by omega⟩, by omega, hlt, hF, ?_, Or.inl (by omega)⟩
      rintro t ⟨j, rfl⟩ hst hte
      rcases Nat.eq_zero_or_pos j with rfl | hj
      · simpa using hT
      · exact hrun _ ⟨j - 1, by omega⟩ hte
    · refine ⟨⟨k + 2, by omega⟩, ⟨k' + 1, by omega⟩, hse, hlt, hF, ?_, Or.inr hFs⟩
      rintro t ⟨j, rfl⟩ hst hte
      exact hrun _ ⟨j - 1, by omega⟩ hst hte
  · rintro ⟨⟨k, rfl⟩, ⟨k', rfl⟩, hse, hlt, hF, hrun, hlast⟩
    rcases Nat.eq_zero_or_pos k with rfl | hk
    · left
      refine ⟨by omega, ⟨k' - 1, by omega⟩, hlt, hF, ?_⟩
      rintro t ⟨j, rfl⟩ hte
      exact hrun _ ⟨j + 1, by omega⟩ (by omega) hte
    · have hFs : inR (cur + 60 * (k : Int) - 60) = false := by
        rcases hlast with hc | hf
        · exfalso; omega
        · exact hf
      by_cases hk1 : k = 1
      · exfalso
        subst hk1
        have hcc : cur + 60 * ((1 : ℕ) : Int) - 60 = cur := by omega
        rw [hcc] at hFs
        simp [hT] at hFs
      · right
        refine ⟨⟨k - 2, by omega⟩, ⟨k' - 1, by omega⟩, hse, hlt, hF, hFs, ?_⟩
        rintro t ⟨j, rfl⟩ hst hte
        exact hrun _ ⟨j + 1, by omega⟩ hst hte

/-- Step lemma, state `some w`, in-range sample: the open window stays open
across an in-range tick. -/
lemma scanStep_some_true {inR : Int → Bool} {endT cur : Int} (hT : inR cur = true) (w s e : Int) :
    ScanSpec inR endT (cur + 60) (some w) s e ↔ ScanSpec inR endT cur (some w) s e := by
  simp only [ScanSpec]
  constructor
  · rintro (⟨rfl, ⟨k, rfl⟩, hlt, hF, hrun⟩ | ⟨⟨k, rfl⟩, ⟨k', rfl⟩, hse, hlt, hF, hFs, hrun⟩)
    · refine Or.inl ⟨rfl, ⟨k + 1, by omega⟩, hlt, hF, ?_⟩
      rintro t ⟨j, rfl⟩ hte
      rcases Nat.eq_zero_or_pos j with rfl | hj
      · simpa using hT
      · exact hrun _ ⟨j - 1, by omega⟩ hte
    · refine Or.inr ⟨⟨k + 1, by omega⟩, ⟨k' + 1, by omega⟩, hse, hlt, hF, hFs, ?_⟩
      rintro t ⟨j, rfl⟩ hst hte
      exact hrun _ ⟨j - 1, by omega⟩ hst hte
  · rintro (⟨rfl, ⟨k, rfl⟩, hlt, hF, hrun⟩ | ⟨⟨k, rfl⟩, ⟨k', rfl⟩, hse, hlt, hF, hFs, hrun⟩)
    · rcases Nat.eq_zero_or_pos k with rfl | hk
      · exfalso
        have hcc : cur + 60 * ((0 : ℕ) : Int) = cur := by omega
        rw [hcc] at hF
        simp [hT] at hF
      · refine Or.inl ⟨rfl, ⟨k - 1, by omega⟩, hlt, hF, ?_⟩
        rintro t ⟨j, rfl⟩ hte
        exact hrun _ ⟨j + 1, by omega⟩ hte
    · rcases Nat.eq_zero_or_pos k with rfl | hk
      · exfalso
        have hcc : cur + 60 * (((0 : ℕ) : Int) + 1) - 60 = cur := by omega
        rw [hcc] at hFs
        simp [hT] at hFs
      · refine Or.inr ⟨⟨k - 1, by omega⟩, ⟨k' - 1, by omega⟩, hse, hlt, hF, hFs, ?_⟩
        rintro t ⟨j, rfl⟩ hst hte
        exact hrun _ ⟨j + 1, by omega⟩ hst hte

/-- Step lemma, state `none`, out-of-range sample: nothing opens and
nothing closes. -/
lemma scanStep_none_false {inR : Int → Bool} {endT cur : Int} (hF : inR cur = false) (s e : Int) :
    ScanSpec inR endT (cur + 60) none s e ↔ ScanSpec inR endT cur none s e := by
  simp only [ScanSpec]
  constructor
  · rintro ⟨⟨k, rfl⟩, ⟨k', rfl⟩, hse, hlt, hFe, hrun, hlast⟩
    refine ⟨⟨k + 1, by omega⟩, ⟨k' + 1, by omega⟩, hse, hlt, hFe, ?_, Or.inr ?_⟩
    · rintro t ⟨j, rfl⟩ hst hte
      exact hrun _ ⟨j - 1, by omega⟩ hst hte
    · rcases hlast with h0 | hFs
      · have hcc : cur + 60 + 60 * ((k : ℕ) : Int) - 60 = cur + 60 * (k : Int) := by omega
        rw [hcc]
        rcases Nat.eq_zero_or_pos k with rfl | hk
        · simpa using hF
        · exfalso; omega
      · exact hFs
  · rintro ⟨⟨k, rfl⟩, ⟨k', rfl⟩, hse, hlt, hFe, hrun, hlast⟩
    rcases Nat.eq_zero_or_pos k with rfl | hk
    · exfalso
      have := hrun (cur + 60 * ((0 : ℕ) : Int)) ⟨0, rfl⟩ (by omega) (by omega)
      have hcc : cur + 60 * ((0 : ℕ) : Int) = cur := by omega
      rw [hcc] at this
      simp [hF] at this
    · refine ⟨⟨k - 1, by omega⟩, ⟨k' - 1, by omega⟩, hse, hlt, hFe, ?_, ?_⟩
      · rintro t ⟨j, rfl⟩ hst hte
        exact hrun _ ⟨j + 1, by omega⟩ hst hte
      · rcases hlast with h0 | hFs
        · exfalso; omega
        · exact Or.inr hFs

/-- Step lemma, state `some w`, out-of-range sample inside the horizon: the
window `[w, cur)` is emitted now, everything else comes from the reset
state. -/
lemma scanStep_some_false {inR : Int → Bool} {endT cur : Int} (hF : inR cur = false)
    (hcur : cur < endT) (w s e : Int) :
    ((s = w ∧ e = cur) ∨ ScanSpec inR endT (cur + 60) none s e) ↔
      ScanSpec inR endT cur (some w) s e := by
  simp only [ScanSpec]
  constructor
  · rintro (⟨rfl, rfl⟩ | ⟨⟨k, rfl⟩, ⟨k', rfl⟩, hse, hlt, hFe, hrun, hlast⟩)
    · refine Or.inl ⟨rfl, ⟨0, by omega⟩, hcur, by simpa using hF, ?_⟩
      rintro t ⟨j, rfl⟩ hte
      exfalso; omega
    · refine Or.inr ⟨⟨k, by omega⟩, ⟨k' + 1, by omega⟩, hse, hlt, hFe, ?_, ?_⟩
      · rcases hlast with h0 | hFs
        · have hcc : cur + 60 + 60 * ((k : ℕ) : Int) - 60 = cur + 60 * (k : Int) := by omega
          rw [hcc]
          rcases Nat.eq_zero_or_pos k with rfl | hk
          · simpa using hF
          · exfalso; omega
        · exact hFs
      · rintro t ⟨j, rfl⟩ hst hte
        exact hrun _ ⟨j - 1, by omega⟩ hst hte
  · rintro (⟨rfl, ⟨k, rfl⟩, hlt, hFe, hrun⟩ | ⟨⟨k, rfl⟩, ⟨k', rfl⟩, hse, hlt, hFe, hFs, hrun⟩)
    · rcases Nat.eq_zero_or_pos k with rfl | hk
      · exact Or.inl ⟨rfl, by omega⟩
      · exfalso
        have := hrun (cur + 60 * ((0 : ℕ) : Int)) ⟨0, rfl⟩ (by omega)
        have hcc : cur + 60 * ((0 : ℕ) : Int) = cur := by omega
        rw [hcc] at this
        simp [hF] at this
    · refine Or.inr ⟨⟨k, by omega⟩, ⟨k' - 1, by omega⟩, hse, hlt, hFe, ?_, ?_⟩
      · rintro t ⟨j, rfl⟩ hst hte
        exact hrun _ ⟨j + 1, by omega⟩ hst hte
      · exact Or.inr hFs

/-- A described window forces the sweep position to be inside the horizon. -/
lemma scanSpec_lt {inR : Int → Bool} {endT cur : Int} {st : Option Int} {s e : Int}
    (h : ScanSpec inR endT cur st s e) : cur < endT := by
  cases st with
  | none =>
    obtain ⟨-, ⟨k, rfl⟩, -, hlt, -⟩ := h
    omega
  | some w =>
    rcases h with ⟨-, ⟨k, rfl⟩, hlt, -⟩ | ⟨-, ⟨k, rfl⟩, -, hlt, -⟩ <;> omega

/-- Exact membership characterisation of the coarse scan loop: with enough
fuel, the windows `scanGo` emits from position `cur` in state `st` are
exactly those `ScanSpec` describes. -/
lemma mem_scanGo (inR : Int → Bool) (endT : Int) :
    ∀ (n : ℕ) (cur : Int), (endT - cur).toNat ≤ n →
      ∀ (st : Option Int) (s e : Int),
        ((s, e) ∈ scanGo inR endT n cur st ↔ ScanSpec inR endT cur st s e) := by
  intro n
  induction n with
  | zero =>
    intro cur hn st s e
    constructor
    · intro h
      simp [scanGo] at h
    · intro h
      exact absurd (scanSpec_lt h) (by omega)
  | succ n ih =>
    intro cur hn st s e
    by_cases hcur : cur < endT
    · have hfuel : (endT - (cur + 60)).toNat ≤ n := by omega
      cases hR : inR cur with
      | false =>
        cases st with
        | none =>
          rw [show scanGo inR endT (n + 1) cur none = scanGo inR endT n (cur + 60) none from by
            simp [scanGo, hcur, hR]]
          rw [ih (cur + 60) hfuel none s e]
          exact scanStep_none_false hR s e
        | some w =>
          rw [show scanGo inR endT (n + 1) cur (some w) =
              (w, cur) :: scanGo inR endT n (cur + 60) none from by
            simp [scanGo, hcur, hR]]
          rw [List.mem_cons, ih (cur + 60) hfuel none s e, Prod.mk.injEq]
          exact scanStep_some_false hR hcur w s e
      | true =>
        cases st with
        | none =>
          rw [show scanGo inR endT (n + 1) cur none =
              scanGo inR endT n (cur + 60) (some cur) from by
            simp [scanGo, hcur, hR]]
          rw [ih (cur + 60) hfuel (some cur) s e]
          exact scanStep_none_true hR s e
        | some w =>
          rw [show scanGo inR endT (n + 1) cur (some w) =
              scanGo inR endT n (cur + 60) (some w) from by
            simp [scanGo, hcur, hR]]
          rw [ih (cur + 60) hfuel (some w) s e]
          exact scanStep_some_true hR w s e
    · constructor
      · intro h
        rw [show scanGo inR endT (n + 1) cur st = [] from by simp [scanGo, hcur]] at h
        simp at h
      · intro h
        exact absurd (scanSpec_lt h) hcur

/-- Membership characterisation for the scan as `calculate_passes` starts
it: no window open, sweeping from `now`. -/
lemma mem_coarseWindows {p : Propagator} {maxD : ℚ} {now endT s e : Int} :
    (s, e) ∈ coarseWindows p maxD now endT ↔
      WinFrom (inRangeB p maxD) endT now s e := by
  unfold coarseWindows scanLoop
  exact mem_scanGo (inRangeB p maxD) endT ((endT - now).toNat) now (le_refl _) none s e

/-! ## Claims about the coarse scan -/

/-- Claim C7: the coarse scan samples the propagator at every 60-second tick
from the horizon start, keeps a boolean in-window state driven by the
inclusive test `distance ≤ max_distance_km`, records the current tick as
pending window start on each false→true transition, and on each true→false
transition closes and emits `[pending_start, current_tick)`: a pair `(s, e)`
is emitted iff `s` and `e` are ticks with `s < e`, `e` lies inside the
horizon and is out of range, every tick of `[s, e)` is in range, and `s`
was entered on a transition (it is the first tick, or its predecessor tick
is out of range). -/
theorem claim_C7_coarse_scan (p : Propagator) (maxD : ℚ) (now endT s e : Int) :
    (s, e) ∈ coarseWindows p maxD now endT ↔
      ((∃ i : ℕ, s = now + 60 * i) ∧ (∃ j : ℕ, e = now + 60 * j) ∧
       s < e ∧ e < endT ∧ ¬(p.dist e ≤ maxD) ∧
       (∀ t, (∃ k : ℕ, t = now + 60 * k) → s ≤ t → t < e → p.dist t ≤ maxD) ∧
       (s = now ∨ ¬(p.dist (s - 60) ≤ maxD))) := by
  rw [mem_coarseWindows]
  unfold WinFrom IsCoarseTick inRangeB
  simp only [decide_eq_true_eq, decide_eq_false_iff_not]

/-- Claim C8: a pass window still open when the horizon ends is silently
discarded.  (i) If the propagator stays in range over the whole horizon the
search returns no pass at all; (ii) every window the coarse scan emits (and
hence every window handed to the fine refiner) closes strictly before the
horizon end, at an out-of-range tick — no truncated trailing window is ever
emitted; (iii) from any open-window state, if every remaining tick of the
horizon stays in range the loop emits nothing. -/
theorem claim_C8_trailing_window_dropped (p : Propagator) (maxD : ℚ) (epoch now endT : Int) :
    ((∀ t : Int, p.dist t ≤ maxD) → calculate_passes p maxD epoch now endT = []) ∧
    (∀ s e : Int, (s, e) ∈ coarseWindows p maxD now endT → e < endT ∧ ¬(p.dist e ≤ maxD)) ∧
    (∀ w cur : Int, (∀ t : Int, cur ≤ t → t < endT → p.dist t ≤ maxD) →
      scanLoop (inRangeB p maxD) endT cur (some w) = []) := by
  refine ⟨?_, ?_, ?_⟩
  · intro hall
    have hw : coarseWindows p maxD now endT = [] := by
      rw [List.eq_nil_iff_forall_not_mem]
      rintro ⟨s, e⟩ ha
      rw [mem_coarseWindows] at ha
      obtain ⟨-, ⟨k, rfl⟩, -, -, hFe, -⟩ := ha
      simp [inRangeB, hall] at hFe
    unfold calculate_passes
    rw [hw]
    rfl
  · intro s e hmem
    rw [mem_coarseWindows] at hmem
    obtain ⟨-, -, -, hlt, hFe, -⟩ := hmem
    exact ⟨hlt, by simpa [inRangeB] using hFe⟩
  · intro w cur hall
    unfold scanLoop
    rw [List.eq_nil_iff_forall_not_mem]
    rintro ⟨s, e⟩ ha
    rw [mem_scanGo (inRangeB p maxD) endT ((endT - cur).toNat) cur (le_refl _) (some w) s e] at ha
    rcases ha with ⟨-, ⟨k, rfl⟩, hlt, hFe, -⟩ | ⟨-, ⟨k, rfl⟩, -, hlt, hFe, -, -⟩ <;>
      simp [inRangeB, hall _ (by omega) hlt] at hFe

/-! ## Ordering of the emitted passes -/

/-- The coarse scan emits windows in sweep order: every emitted window spans
at least one coarse step, consecutive same-scan windows are separated by at
least one out-of-range tick, and window starts never precede the state's
lower bound. -/
lemma scanGo_chain (inR : Int → Bool) (endT : Int) :
    ∀ (n : ℕ) (cur : Int) (st : Option Int),
      (∀ w, st = some w → w + 60 ≤ cur) →
      List.Pairwise WRel (scanGo inR endT n cur st) ∧
      ∀ x ∈ scanGo inR endT n cur st, stLB st cur ≤ x.1 ∧ x.1 + 60 ≤ x.2 := by
  intro n
  induction n with
  | zero =>
    intro cur st hst
    simp [scanGo]
  | succ n ih =>
    intro cur st hst
    by_cases hcur : cur < endT
    · cases hR : inR cur with
      | true =>
        cases st with
        | none =>
          rw [show scanGo inR endT (n + 1) cur none =
              scanGo inR endT n (cur + 60) (some cur) from by simp [scanGo, hcur, hR]]
          obtain ⟨hp, hm⟩ := ih (cur + 60) (some cur) (fun w hw => by
            obtain rfl := Option.some.inj hw; omega)
          refine ⟨hp, fun x hx => ?_⟩
          obtain ⟨h₁, h₂⟩ := hm x hx
          exact ⟨by simpa [stLB] using h₁, h₂⟩
        | some w =>
          rw [show scanGo inR endT (n + 1) cur (some w) =
              scanGo inR endT n (cur + 60) (some w) from by simp [scanGo, hcur, hR]]
          obtain ⟨hp, hm⟩ := ih (cur + 60) (some w) (fun w' hw' => by
            obtain rfl := Option.some.inj hw'
            have := hst w rfl
            omega)
          exact ⟨hp, hm⟩
      | false =>
        cases st with
        | none =>
          rw [show scanGo inR endT (n + 1) cur none =
              scanGo inR endT n (cur + 60) none from by simp [scanGo, hcur, hR]]
          obtain ⟨hp, hm⟩ := ih (cur + 60) none (fun w hw => by simp at hw)
          refine ⟨hp, fun x hx => ?_⟩
          obtain ⟨h₁, h₂⟩ := hm x hx
          simp only [stLB] at h₁ ⊢
          exact ⟨by omega, h₂⟩
        | some w =>
          rw [show scanGo inR endT (n + 1) cur (some w) =
              (w, cur) :: scanGo inR endT n (cur + 60) none from by simp [scanGo, hcur, hR]]
          obtain ⟨hp, hm⟩ := ih (cur + 60) none (fun w' hw' => by simp at hw')
          have hwc : w + 60 ≤ cur := hst w rfl
          constructor
          · rw [List.pairwise_cons]
            refine ⟨fun y hy => ?_, hp⟩
            obtain ⟨h₁, h₂⟩ := hm y hy
            simp only [stLB] at h₁
            exact ⟨by omega, by omega, h₂⟩
          · intro x hx
            rcases List.mem_cons.mp hx with rfl | hx'
            · simp only [stLB]
              exact ⟨le_refl w, by omega⟩
            · obtain ⟨h₁, h₂⟩ := hm x hx'
              simp only [stLB] at h₁ ⊢
              exact ⟨by omega, h₂⟩
    · rw [show scanGo inR endT (n + 1) cur st = [] from by simp [scanGo, hcur]]
      simp

/-- `filterMap` carries a pairwise relation through, when the function maps
related inputs to related outputs. -/
lemma filterMap_pairwise {α β : Type} (R : α → α → Prop) (S : β → β → Prop)
    (f : α → Option β)
    (hf : ∀ a b x y, R a b → f a = some x → f b = some y → S x y) :
    ∀ l : List α, List.Pairwise R l → List.Pairwise S (l.filterMap f) := by
  intro l
  induction l with
  | nil => intro _; simp
  | cons a l ih =>
    intro hp
    obtain ⟨ha, hl⟩ := List.pairwise_cons.mp hp
    cases hfa : f a with
    | none =>
      simp only [List.filterMap_cons, hfa]
      exact ih hl
    | some x =>
      simp only [List.filterMap_cons, hfa]
      rw [List.pairwise_cons]
      refine ⟨fun y hy => ?_, ih hl⟩
      obtain ⟨b, hb, hfb⟩ := List.mem_filterMap.mp hy
      exact hf a b x y (ha b hb) hfa hfb

/-- Two passes refined from windows in sweep order keep their closest
instants in (non-strict) order and their coarse bounds disjoint: if the
later window's closest instant came first, both instants would lie in both
padded grids, and numpy's first-occurrence argmin on the earlier grid
contradicts minimality on the later grid. -/
lemma refine_cross (p : Propagator) (maxD : ℚ) (epoch : Int) {s e s' e' : Int}
    {rp q : RefinedPass}
    (h1 : s + 60 ≤ e) (h2 : e + 60 ≤ s') (h3 : s' + 60 ≤ e')
    (hr : refine_pass_data p maxD epoch s e = some rp)
    (hq : refine_pass_data p maxD epoch s' e' = some q) :
    rp.closest_time ≤ q.closest_time ∧ rp.end_ < q.start := by
  obtain ⟨hrs, hre, hrmem, -, -, -, hrfirst, -, -, -⟩ :=
    refine_some_spec p maxD epoch s e rp (by omega) hr
  obtain ⟨hqs, hqe, hqmem, -, -, hqmin, -, -, -, -⟩ :=
    refine_some_spec p maxD epoch s' e' q (by omega) hq
  constructor
  · by_contra hlt
    push_neg at hlt
    rcases mem_fineTimes.mp hrmem with ⟨hr1, hr2⟩
    rcases mem_fineTimes.mp hqmem with ⟨hq1, hq2⟩
    have hcq_in_r : q.closest_time ∈ fineTimes s e := mem_fineTimes.mpr ⟨by omega, by omega⟩
    have hcr_in_q : rp.closest_time ∈ fineTimes s' e' := mem_fineTimes.mpr ⟨by omega, by omega⟩
    have hA := hrfirst q.closest_time hcq_in_r hlt
    have hB := hqmin rp.closest_time hcr_in_q
    linarith
  · rw [hre, hqs]
    omega

/-- Amended claim C2: over every run of the search, the emitted `RefinedPass`
sequence is ordered by `closest_time` non-decreasing (strictness can fail:
the 60-second padded fine grids of adjacent coarse windows overlap and can
share their argmin instant), and the passes are non-overlapping — each
pass's coarse end precedes the next pass's coarse start. -/
theorem claim_C2_passes_ordered (p : Propagator) (maxD : ℚ) (epoch now endT : Int) :
    List.Pairwise (fun a b => a.closest_time ≤ b.closest_time ∧ a.end_ < b.start)
      (calculate_passes p maxD epoch now endT) := by
  unfold calculate_passes coarseWindows scanLoop
  have hw := (scanGo_chain (inRangeB p maxD) endT ((endT - now).toNat) now none
    (fun w hw => by simp at hw)).1
  refine filterMap_pairwise WRel _ _ (fun a b x y hR hfa hfb => ?_) _ hw
  exact refine_cross p maxD epoch hR.1 hR.2.1 hR.2.2 hfa hfb

/-- Counterexample to C2 as stated: with the `tieProp` propagator, threshold
10 km and horizon `[0, 241)`, the scan finds the windows `[0, 60)` and
`[120, 180)`; both padded fine grids contain the instant 119, the unique
global minimum of both, so the two emitted passes share
`closest_time = 119` and the sequence is not strictly ordered. -/
theorem claim_C2_cex :
    ((calculate_passes tieProp 10 0 0 241).map RefinedPass.closest_time = [119, 119]) ∧
    ¬ List.Pairwise (fun a b => a.closest_time < b.closest_time)
        (calculate_passes tieProp 10 0 0 241) :=
  ⟨by decide, by decide⟩

/-! ## The horizon start and determinism -/

/-- Amended claim C1: in the source the caller of `calculate_passes`
supplies only the horizon duration; the horizon start is the ambient current
instant read inside the engine (`start_time = ts.now()`, line 149).  With
that instant held fixed as an explicit input, the search is deterministic:
identical elements/location (a propagator equal as a function), threshold,
epoch, start instant and duration yield identical `RefinedPass`
sequences. -/
theorem claim_C1_determinism (p₁ p₂ : Propagator) (maxD : ℚ) (epoch now durSec : Int)
    (hdist : ∀ t, p₁.dist t = p₂.dist t) (helev : ∀ t, p₁.elev t = p₂.elev t) :
    calculate_passes_run p₁ maxD epoch now durSec =
      calculate_passes_run p₂ maxD epoch now durSec := by
  obtain ⟨d₁, a₁⟩ := p₁
  obtain ⟨d₂, a₂⟩ := p₂
  have hd : d₁ = d₂ := funext hdist
  have ha : a₁ = a₂ := funext helev
  rw [hd, ha]

/-- Witness for C1's amended claim at a concrete propagator and horizon. -/
theorem claim_C1_determinism_witness :
    calculate_passes_run demoProp 1000 0 0 121 = calculate_passes_run demoProp 1000 0 0 121 :=
  claim_C1_determinism demoProp demoProp 1000 0 0 121 (fun _ => rfl) (fun _ => rfl)

/-- Counterexample to C1 as stated: the engine's horizon start is not a
caller-supplied instant — it is read from the ambient clock.  With every
caller-visible input fixed (propagator, threshold, epoch, duration 121 s),
running at ambient instant 0 finds one pass while running at ambient
instant 200 finds none, so the output depends on the clock. -/
theorem claim_C1_cex :
    calculate_passes_run demoProp 1000 0 0 121 ≠ calculate_passes_run demoProp 1000 0 200 121 := by
  intro h
  have h1 : (calculate_passes_run demoProp 1000 0 0 121).length = 1 := by decide
  have h2 : (calculate_passes_run demoProp 1000 0 200 121).length = 0 := by decide
  rw [h, h2] at h1
  exact absurd h1 (by decide)
